import Mathlib

/-!
# Verification of the `comere` SMR library core

This file shallowly embeds the parts of the repository that the claims
address and proves (or refutes) each claim over that embedding.

Embedded components:

* the Michael-Scott queue of `src/ebr/queue.rs` and `src/hp/queue.rs`
  (`push`, `pop`, `pop_if`, `is_empty`), as state-passing functions over an
  explicit heap of nodes;
* the per-iteration branch structure of `pop` in both SMR variants, with the
  head-CAS outcome made an explicit parameter (`ebrPopAttempt`,
  `hpPopAttempt`);
* the EBR runtime pieces of `src/ebr/mod.rs`: the thread pin-marker word
  (`ThreadPinMarker`), garbage `Bag`s with `try_insert`, and
  `GlobalState::free_garbage` / `GlobalState::increment_epoch`;
* the tagged atomic cell's `compare_and_set` of `src/hp/atomic.rs`;
* the walk of `List::contains` and `Iter::next` of `src/ebr/list.rs`.

Machine words (`usize`) are modelled as `Nat`; the operations involved
(`<< 1 | 1`, `& !1`, saturating subtraction, array indexing) never overflow
or only clear low bits, so no explicit modulus is needed.  Pointers are
modelled as indices into an append-only heap list; a `CAS` in the
single-threaded executions always succeeds, so the retry loops are embedded
as the branch the code then takes, while the concurrency-sensitive branch of
`pop` keeps the CAS outcome as an explicit boolean parameter.
-/

namespace Comere

/-! ## The Michael-Scott queue (src/ebr/queue.rs, src/hp/queue.rs)

A queue node (`Node<T>`): `data` is `ManuallyDrop<T>`, which for the head
sentinel is uninitialized; we model that slot as `Option α`, `none` standing
for the uninitialized sentinel slot (it is never read on reachable paths).
`next` is an `Atomic<Node<T>>`, i.e. null or a pointer; we model pointers as
indices into the heap list, so `next : Option Nat`. -/
structure QNode (α : Type) where
  data : Option α
  next : Option Nat
  deriving Repr, DecidableEq

/-- The queue together with the heap of nodes it has allocated.  The heap is
append-only: retiring a node to the SMR layer does not alter its contents
before it is physically freed, and no reachable operation dereferences a
freed node, so we keep all nodes.  `head` and `tail` are the two `Atomic`
fields of `Queue<T>`. -/
structure QueueState (α : Type) where
  heap : List (QNode α)
  head : Nat
  tail : Nat
  deriving Repr, DecidableEq

namespace Queue

variable {α : Type}

/-- Source `Queue::new`: allocate the sentinel (`Node::empty()`, uninitialized data,
null next) and point both `head` and `tail` at it. -/
def new : QueueState α := ⟨[⟨none, none⟩], 0, 0⟩

/-- Store `some b` into the `next` field of the node at address `a`
(the successful `t.next.compare_and_set(Ptr::null(), new_node, ..)`). -/
def setNext (heap : List (QNode α)) (a b : Nat) : List (QNode α) :=
  match heap.get? a with
  | some n => heap.set a { n with next := some b }
  | none => heap

/-- The `loop` of `Queue::push`, after the new node has been allocated at
`newAddr`.  Each iteration loads `tail`, dereferences it and loads its
`next`:
* if `next` is non-null, the code helps by CASing `queue.tail` from `tail`
  to `next` and continues — single-threaded the CAS succeeds, so this is
  `tail := next` and a recursive call;
* if `next` is null, the code CASes `t.next` from null to the new node and
  then CASes `queue.tail` to the new node; single-threaded both succeed.

Dereferencing an address outside the heap would be undefined behaviour; the
function returns `none` there (and when fuel runs out), which never happens
from reachable states. -/
def pushLoop (newAddr : Nat) : Nat → QueueState α → Option (QueueState α)
  | 0, _ => none
  | fuel + 1, st =>
    match st.heap.get? st.tail with
    | none => none
    | some tn =>
      match tn.next with
      | some nxt => pushLoop newAddr fuel { st with tail := nxt }
      | none =>
        some { st with heap := setNext st.heap st.tail newAddr, tail := newAddr }

/-- Source `Queue::push`: allocate `Node::new(t)` (data present, next null) at the
end of the heap, then run the linking loop.  `heap.length + 1` iterations of
fuel are enough for any state whose tail chain is a path through the heap;
from reachable states the first iteration already links. -/
def push (st : QueueState α) (t : α) : Option (QueueState α) :=
  let newAddr := st.heap.length
  let st1 : QueueState α := { st with heap := st.heap ++ [⟨some t, none⟩] }
  pushLoop newAddr (st.heap.length + 1) st1

/-- Source `Queue::pop`, single-threaded execution: load `head`, dereference it,
load its `next`.  If `next` is null return `None`; otherwise read the
successor's data, CAS `head` from the old sentinel to the successor (which
succeeds with no interference) and return `Some(data)`.  The outer `none`
models dereferencing an invalid pointer or reading the uninitialized
sentinel slot — undefined behaviour that reachable states never hit. -/
def pop (st : QueueState α) : Option (Option α × QueueState α) :=
  match st.heap.get? st.head with
  | none => none
  | some h =>
    match h.next with
    | none => some (none, st)
    | some nxt =>
      match st.heap.get? nxt with
      | none => none
      | some node =>
        match node.data with
        | none => none
        | some d => some (some d, { st with head := nxt })

/-- Source `Queue::pop_if`: load `head` and its `next`; if `next` is null return
`None`; otherwise read the successor's data and evaluate the predicate.
Only if it holds is the head CAS attempted (which single-threaded succeeds);
otherwise return `None` with the queue untouched. -/
def pop_if (st : QueueState α) (f : α → Bool) : Option (Option α × QueueState α) :=
  match st.heap.get? st.head with
  | none => none
  | some h =>
    match h.next with
    | none => some (none, st)
    | some nxt =>
      match st.heap.get? nxt with
      | none => none
      | some node =>
        match node.data with
        | none => none
        | some d =>
          if f d then some (some d, { st with head := nxt })
          else some (none, st)

/-- Source `Queue::is_empty`: load `head`, dereference it, and test whether its
`next` is null. -/
def is_empty (st : QueueState α) : Option Bool :=
  match st.heap.get? st.head with
  | none => none
  | some h => some h.next.isNone

end Queue

/-! ### Representation predicate

`ChainTo heap a xs last` says: the node at address `a` exists, and following
`next` pointers from it visits nodes whose data slots hold exactly `xs`,
ending at address `last` whose `next` is null.  Addresses strictly increase
along the chain — pushes always link the freshly appended (largest) address,
so this holds in every single-threaded reachable state and gives us that the
chain's addresses are pairwise distinct. -/
inductive ChainTo (heap : List (QNode α)) : Nat → List α → Nat → Prop where
  | nil : ∀ {a n}, heap.get? a = some n → n.next = none → ChainTo heap a [] a
  | cons : ∀ {a n b bn x xs last}, heap.get? a = some n → n.next = some b →
      heap.get? b = some bn → bn.data = some x → a < b →
      ChainTo heap b xs last → ChainTo heap a (x :: xs) last

/-- The queue invariant: the sentinel chain from `head` holds the queue's
elements and ends at `tail`. -/
def QueueRepr (st : QueueState α) (xs : List α) : Prop :=
  ChainTo st.heap st.head xs st.tail



/-! ### Single-threaded operation sequences and the FIFO reference model -/

/-- A single-threaded queue operation. -/
inductive QOp (α : Type) where
  | push : α → QOp α
  | pop : QOp α
  deriving Repr, DecidableEq

/-- The reference FIFO: a plain list, `push` appends at the back, `pop`
takes the front. The second component is the result a `pop` reports. -/
def specStep (xs : List α) : QOp α → List α × Option (Option α)
  | .push t => (xs ++ [t], none)
  | .pop =>
    match xs with
    | [] => ([], some none)
    | x :: rest => (rest, some (some x))

/-- Run the reference FIFO over an operation sequence, collecting the
result of every `pop`. -/
def specRun (xs : List α) : List (QOp α) → List α × List (Option α)
  | [] => (xs, [])
  | op :: ops =>
    let s := specStep xs op
    let r := specRun s.1 ops
    (r.1, s.2.toList ++ r.2)

/-- Run the implementation over an operation sequence from state `st`,
collecting the result of every `pop`.  `none` signals that an execution
step hit undefined behaviour (never from reachable states). -/
def runOps (st : QueueState α) : List (QOp α) → Option (QueueState α × List (Option α))
  | [] => some (st, [])
  | .push t :: ops =>
    match Queue.push st t with
    | none => none
    | some st' => runOps st' ops
  | .pop :: ops =>
    match Queue.pop st with
    | none => none
    | some (r, st') =>
      match runOps st' ops with
      | none => none
      | some (stf, rs) => some (stf, r :: rs)


/-! ### Reachable queue states -/

/-- Queue states reachable by single-threaded sequences of operations from
`Queue::new`. -/
inductive Reachable : QueueState α → Prop where
  | new : Reachable Queue.new
  | push : ∀ {st st' : QueueState α} {t : α}, Reachable st →
      Queue.push st t = some st' → Reachable st'
  | pop : ∀ {st st' : QueueState α} {r : Option α}, Reachable st →
      Queue.pop st = some (r, st') → Reachable st'


/-! ### The pop iteration with an explicit CAS outcome (claim on the retry
branch)

In a concurrent run the `head` CAS of `pop` can fail.  The two variants
react differently; we embed one iteration of each `pop` body with the CAS
outcome as an explicit boolean.  All loads and (for HP) the
publish-and-validate steps are taken from the single-threaded snapshot; the
parameter `casOk` is the outcome of `self.head.compare_and_set(head, next, ..)`. -/

/-- What one iteration of a `pop` body does: return to the caller, or go
around the retry loop again. -/
inductive PopAttempt (α : Type) where
  | ret : Option α → PopAttempt α
  | retry : PopAttempt α
  deriving Repr, DecidableEq

/-- One iteration of the `'outer: loop` of `Queue::pop` in
`src/ebr/queue.rs` (lines 118-166): if the sentinel's `next` is null return
`None`; otherwise CAS `head`; on success read the successor's data and
return `Some(data)`; on failure `continue 'outer`. -/
def ebrPopAttempt (st : QueueState α) (casOk : Bool) : Option (PopAttempt α) :=
  match st.heap.get? st.head with
  | none => none
  | some h =>
    match h.next with
    | none => some (.ret none)
    | some nxt =>
      match st.heap.get? nxt with
      | none => none
      | some node =>
        if casOk then
          match node.data with
          | none => none
          | some d => some (.ret (some d))
        else some .retry

/-- One attempt of `Queue::pop` in `src/hp/queue.rs` (lines 88-141): the
hazard publish-and-validate steps pass on an uncontended snapshot; if the
sentinel's `next` is null return `None`; otherwise CAS `head`; on success
read the successor's data and return `Some(data)`; on failure the code hits
`Err(e) => None` and returns `None` to the caller. -/
def hpPopAttempt (st : QueueState α) (casOk : Bool) : Option (PopAttempt α) :=
  match st.heap.get? st.head with
  | none => none
  | some h =>
    match h.next with
    | none => some (.ret none)
    | some nxt =>
      match st.heap.get? nxt with
      | none => none
      | some node =>
        if casOk then
          match node.data with
          | none => none
          | some d => some (.ret (some d))
        else some (.ret none)

/-! ## The EBR runtime (src/ebr/mod.rs) -/

namespace Ebr

/-! ### The thread pin marker

`ThreadPinMarker` holds one machine word `epoch`, packing
`(observed_epoch << 1) | pinned_bit`.  The word is a `Nat`: epochs only
grow by increments, so no overflow wrap is reachable in practice and the
source performs no wrapping arithmetic on the word. -/

/-- Source `ThreadPinMarker::epoch_and_pinned` (lines 122-126): decode the word
into the observed epoch and the pinned bit. -/
def epoch_and_pinned (w : Nat) : Nat × Bool :=
  (w >>> 1, w &&& 1 == 1)

/-- Source `ThreadPinMarker::pin` (lines 80-96): read the word, clear the pinned
bit (`e & !1`, i.e. `2 * (w / 2)`), and CAS from that cleared value to
`(epoch << 1) | 1`.  If the CAS fails — which single-threaded happens
exactly when the pinned bit was already set — the code panics; `none`
models the panic. -/
def markerPin (w : Nat) (epoch : Nat) : Option Nat :=
  let current_epoch := 2 * (w / 2)
  if w = current_epoch then some ((epoch <<< 1) ||| 1) else none

/-- Source `ThreadPinMarker::unpin` (lines 98-109): read the word and CAS it to
the same word with the pinned bit cleared; single-threaded the CAS always
succeeds (the failure branch panics, modelled by `none`). -/
def markerUnpin (w : Nat) : Option Nat :=
  let pinned_epoch := w
  let unpinned_epoch := 2 * (w / 2)
  if w = pinned_epoch then some unpinned_epoch else none

/-! ### Garbage bags -/

/-- Source `BAG_SIZE` (line 149). -/
def BAG_SIZE : Nat := 32

/-- A `Bag` (lines 141-148): a fixed-size array of optional garbage slots
(`γ` stands for the type-erased `Garbage`) plus the index of the first free
slot. -/
structure Bag (γ : Type) where
  data : List (Option γ)
  index : Nat
  deriving Repr, DecidableEq

namespace Bag

/-- Source `Bag::new` (lines 184-192): all slots empty, index 0. -/
def new {γ : Type} : Bag γ := ⟨List.replicate BAG_SIZE none, 0⟩

/-- Source `Bag::is_full` (lines 194-197). -/
def is_full {γ : Type} (b : Bag γ) : Bool := b.index == BAG_SIZE

/-- Source `Bag::try_insert` (lines 199-209): if the bag is full, hand the garbage
back as `Err(t)` (the bag itself is untouched); otherwise store it at
`data[index]`, bump `index`, and return `Ok(())` (here: the updated bag). -/
def try_insert {γ : Type} (b : Bag γ) (t : γ) : Except γ (Bag γ) :=
  if b.is_full then .error t
  else .ok ⟨b.data.set b.index (some t), b.index + 1⟩

/-- Bags produced by the bag operations: `Bag::new` and successful
`try_insert`s. -/
inductive Built {γ : Type} : Bag γ → Prop where
  | new : Built new
  | insert : ∀ {b b' : Bag γ} {t : γ}, Built b → try_insert b t = .ok b' →
      Built b'

/-- The bag invariant: 32 slots, `index ≤ 32`, and every slot below `index`
is occupied. -/
def Wf {γ : Type} (b : Bag γ) : Prop :=
  b.data.length = BAG_SIZE ∧ b.index ≤ BAG_SIZE ∧
    ∀ i, i < b.index → ∃ g, b.data.get? i = some (some g)
end Bag

/-! ### Freeing deferred garbage -/

/-- Source `GlobalState::free_garbage` (lines 257-286): repeatedly `pop_if` the
front of the deferred FIFO while its tag satisfies
`current_epoch.saturating_sub(e) >= 2` (on `Nat`, subtraction saturates),
dropping each popped bag's garbage.  The FIFO is taken by its abstract
front-to-back contents; the result is `(freed bags, remaining FIFO)`.  The
drain stops at the first bag that fails the age test. -/
def free_garbage {γ : Type} (current_epoch : Nat) :
    List (Nat × Bag γ) → List (Nat × Bag γ) × List (Nat × Bag γ)
  | [] => ([], [])
  | (e, b) :: rest =>
    if current_epoch - e ≥ 2 then
      let r := free_garbage current_epoch rest
      ((e, b) :: r.1, r.2)
    else ([], (e, b) :: rest)

/-- Source `GlobalState::increment_epoch` (lines 289-305): CAS the global epoch
from the observed `epoch` to `epoch + 1`; only on success call
`free_garbage` with `current_epoch = epoch + 1`.  Returns the new global
epoch and the remaining FIFO. -/
def increment_epoch {γ : Type} (global observed : Nat)
    (q : List (Nat × Bag γ)) : Nat × List (Nat × Bag γ) :=
  if global = observed then
    (observed + 1, (free_garbage (observed + 1) q).2)
  else (global, q)

end Ebr

/-! ## The tagged atomic pointer (src/hp/atomic.rs) -/

namespace HpAtomic

/-- A `Ptr`: the tagged machine word (`pub data: usize`).  Equality of
`Ptr`s is equality of the words (`impl PartialEq for Ptr`). -/
structure Ptr where
  data : Nat
  deriving Repr, DecidableEq

/-- Source `Atomic::compare_and_set` (lines 239-254): delegate to
`AtomicUsize::compare_exchange(current.data, new.data, ..)`.  The cell is
the `AtomicUsize`'s word; the result pairs the returned
`Result<(), Ptr>` with the cell's word afterwards.  `compare_exchange`
(strong) stores `new` exactly when the cell equals `current.data`, and on
failure returns the cell's actual value and leaves it unchanged. -/
def compare_and_set (cell : Nat) (current new : Ptr) : Except Ptr Unit × Nat :=
  if cell = current.data then (.ok (), new.data) else (.error ⟨cell⟩, cell)

end HpAtomic

/-! ## The list walks (src/ebr/list.rs) -/

namespace EbrList

/-- A snapshot of the nodes of a `List<T>` in order: each entry is a node's
data together with the tag carried by that node's `next` pointer. -/
abbrev NodeSeq (α : Type) := List (α × Nat)

/-- The outcome of one pass of the `contains` walk. -/
inductive WalkResult where
  | found
  | absent
  | restart
  deriving Repr, DecidableEq

/-- One pass of the `'outer` loop of `List::contains` (lines 329-357): walk
from the head; at each node, if its data equals the value return `true`;
otherwise load the node's `next` and, if it carries a non-zero tag,
`continue 'outer` (restart from the head); otherwise step to the next
node.  Reaching null yields `false`. -/
def containsWalk {α : Type} [DecidableEq α] (value : α) :
    NodeSeq α → WalkResult
  | [] => .absent
  | (d, tag) :: rest =>
    if d = value then .found
    else if tag ≠ 0 then .restart
    else containsWalk value rest

/-- Source `Iter::next` (lines 147-158): if the current pointer is non-null,
advance `self.node` to `node.next.load(..)` — the full word, tag included;
the subsequent `as_ref` masks the tag off — and yield the node's data.
There is no tag test anywhere on this path. -/
def iterNext {α : Type} (ns : NodeSeq α) : Option (α × NodeSeq α) :=
  match ns with
  | [] => none
  | (d, _) :: rest => some (d, rest)

/-- Running the iterator to exhaustion: every node's data is yielded, in
order, regardless of tags. -/
def iterCollect {α : Type} : NodeSeq α → List α
  | [] => []
  | (d, _) :: rest => d :: iterCollect rest

end EbrList

/-! ## Theorems -/

namespace ChainTo

variable {α : Type} {heap : List (QNode α)}

theorem start_lt_length {a : Nat} {xs : List α} {last : Nat}
    (h : ChainTo heap a xs last) : a < heap.length := by
  cases h with
  | nil ha _ => exact List.get?_eq_some.mp ha |>.1
  | cons ha _ _ _ _ _ => exact List.get?_eq_some.mp ha |>.1

theorem start_le_last {a : Nat} {xs : List α} {last : Nat}
    (h : ChainTo heap a xs last) : a ≤ last := by
  induction h with
  | nil _ _ => exact Nat.le_refl _
  | cons _ _ _ _ hab _ ih => exact Nat.le_of_lt (Nat.lt_of_lt_of_le hab ih)

theorem last_node {a : Nat} {xs : List α} {last : Nat}
    (h : ChainTo heap a xs last) :
    ∃ n : QNode α, heap.get? last = some n ∧ n.next = none := by
  induction h with
  | nil ha hn => exact ⟨_, ha, hn⟩
  | cons _ _ _ _ _ _ ih => exact ih

/-- Entries of the extended-and-relinked heap other than the old last node
are unchanged. -/
theorem get?_push_heap_ne {v w : QNode α} {last j : Nat}
    (hj : j < heap.length) (hne : j ≠ last) :
    ((heap ++ [v]).set last w).get? j = heap.get? j := by
  rw [List.get?_set_ne _ _ (fun h => hne h.symm),
    List.get?_append hj]

/-- Appending a fresh node at `heap.length` and then pointing the old last
node (whose `next` was null) at it extends the chain by the new node's
value. -/
theorem extend {last : Nat} {ld : Option α} (t : α)
    (hlast : heap.get? last = some (⟨ld, none⟩ : QNode α)) :
    ∀ {a : Nat} {xs : List α}, ChainTo heap a xs last →
    ChainTo ((heap ++ [(⟨some t, none⟩ : QNode α)]).set last
      (⟨ld, some heap.length⟩ : QNode α)) a (xs ++ [t]) heap.length := by
  have hlastlt : last < heap.length := List.get?_eq_some.mp hlast |>.1
  have hlen : ((heap ++ [(⟨some t, none⟩ : QNode α)]).set last
      (⟨ld, some heap.length⟩ : QNode α)).get? heap.length =
      some (⟨some t, none⟩ : QNode α) := by
    rw [List.get?_set_ne _ _ (Nat.ne_of_lt hlastlt), List.get?_concat_length]
  have hsetlast : ((heap ++ [(⟨some t, none⟩ : QNode α)]).set last
      (⟨ld, some heap.length⟩ : QNode α)).get? last =
      some (⟨ld, some heap.length⟩ : QNode α) := by
    rw [List.get?_set_eq_of_lt]
    simp only [List.length_append, List.length_singleton]
    omega
  intro a xs h
  induction xs generalizing a with
  | nil =>
    cases h with
    | nil ha hn =>
      exact ChainTo.cons hsetlast rfl hlen rfl hlastlt (ChainTo.nil hlen rfl)
  | cons x xs ih =>
    cases h with
    | cons ha hnx hb hbd hab hchain =>
      rename_i n b bn
      have hble : b ≤ last := hchain.start_le_last
      have halt : a < heap.length := List.get?_eq_some.mp ha |>.1
      have hane : a ≠ last := Nat.ne_of_lt (Nat.lt_of_lt_of_le hab hble)
      have ha2 : ((heap ++ [(⟨some t, none⟩ : QNode α)]).set last
          (⟨ld, some heap.length⟩ : QNode α)).get? a = some n :=
        (get?_push_heap_ne halt hane).trans ha
      rcases Nat.lt_or_ge b last with hblt | hbge
      · have hblen : b < heap.length := List.get?_eq_some.mp hb |>.1
        have hb2 := (get?_push_heap_ne (v := (⟨some t, none⟩ : QNode α))
          (w := (⟨ld, some heap.length⟩ : QNode α)) hblen
          (Nat.ne_of_lt hblt)).trans hb
        exact ChainTo.cons ha2 hnx hb2 hbd hab (ih hchain)
      · have hbeq : b = last := Nat.le_antisymm hble hbge
        subst hbeq
        have hbn : bn = (⟨ld, none⟩ : QNode α) := by
          rw [hb] at hlast; exact Option.some.inj hlast
        have hld : ld = some x := by rw [hbn] at hbd; exact hbd
        exact ChainTo.cons ha2 hnx hsetlast (by simp [hld]) hab (ih hchain)

end ChainTo

namespace Queue

variable {α : Type}

/-- Running `push` from a well-represented state succeeds (the first loop iteration
already links, since `tail` is the last chain node) and appends the value to
the abstract queue, leaving `head` alone. -/
theorem push_spec {st : QueueState α} {xs : List α} (t : α)
    (h : QueueRepr st xs) :
    ∃ st', push st t = some st' ∧ QueueRepr st' (xs ++ [t]) ∧
      st'.head = st.head := by
  obtain ⟨heap, hd, tl⟩ := st
  obtain ⟨n, hlast, hnone⟩ := h.last_node
  obtain ⟨nd, nn⟩ := n
  simp only at hnone hlast
  subst hnone
  have htl : tl < heap.length := List.get?_eq_some.mp hlast |>.1
  have hget1 : (heap ++ [(⟨some t, none⟩ : QNode α)]).get? tl =
      some (⟨nd, none⟩ : QNode α) := by
    rw [List.get?_append htl]; exact hlast
  refine ⟨⟨(heap ++ [(⟨some t, none⟩ : QNode α)]).set tl
      (⟨nd, some heap.length⟩ : QNode α), hd, heap.length⟩, ?_, ?_, rfl⟩
  · show pushLoop heap.length (heap.length + 1)
      ⟨heap ++ [(⟨some t, none⟩ : QNode α)], hd, tl⟩ = some _
    rw [pushLoop]
    simp only [hget1, setNext]
  · exact ChainTo.extend t hlast h

/-- Running `pop` from a well-represented state returns the abstract queue's first
element (or `None` when empty, leaving the state untouched) and the new
state represents the abstract tail. -/
theorem pop_spec {st : QueueState α} {xs : List α} (h : QueueRepr st xs) :
    ∃ st', pop st = some (xs.head?, st') ∧ QueueRepr st' xs.tail ∧
      (xs = [] → st' = st) := by
  obtain ⟨heap, hd, tl⟩ := st
  cases h with
  | nil ha hn =>
    rename_i n
    obtain ⟨nd, nn⟩ := n
    simp only at hn
    subst hn
    refine ⟨⟨heap, hd, hd⟩, ?_, ChainTo.nil ha rfl, fun _ => rfl⟩
    unfold pop
    rw [ha]
    rfl
  | cons ha hnx hb hbd hab hchain =>
    rename_i n b bn x xs'
    obtain ⟨nd, nn⟩ := n
    simp only at hnx
    subst hnx
    obtain ⟨bnd, bnn⟩ := bn
    simp only at hbd
    subst hbd
    refine ⟨⟨heap, b, tl⟩, ?_, hchain, by simp⟩
    unfold pop
    rw [ha]
    show (match heap.get? b with
      | none => none
      | some node =>
        match node.data with
        | none => none
        | some d => some (some d, ({ heap := heap, head := b, tail := tl } :
            QueueState α))) = _
    rw [hb]
    rfl

/-- Running `is_empty` from a well-represented state answers whether the abstract
queue is empty. -/
theorem is_empty_spec {st : QueueState α} {xs : List α} (h : QueueRepr st xs) :
    is_empty st = some xs.isEmpty := by
  obtain ⟨heap, hd, tl⟩ := st
  cases h with
  | nil ha hn =>
    rename_i n
    obtain ⟨nd, nn⟩ := n
    simp only at hn
    subst hn
    unfold is_empty
    rw [ha]
    rfl
  | cons ha hnx hb hbd hab hchain =>
    rename_i n b bn x xs'
    obtain ⟨nd, nn⟩ := n
    simp only at hnx
    subst hnx
    unfold is_empty
    rw [ha]
    rfl

/-- The empty queue represents the empty list. -/
theorem new_repr : QueueRepr (new : QueueState α) [] :=
  ChainTo.nil rfl rfl

end Queue

/-- The implementation refines the reference FIFO: from any
well-represented state, any operation sequence executes without undefined
behaviour, the pop results are exactly those of the reference FIFO, and the
final state represents the reference FIFO's final contents. -/
theorem runOps_refines {st : QueueState α} {xs : List α} (h : QueueRepr st xs)
    (ops : List (QOp α)) :
    ∃ stf, runOps st ops = some (stf, (specRun xs ops).2) ∧
      QueueRepr stf (specRun xs ops).1 := by
  induction ops generalizing st xs with
  | nil => exact ⟨st, rfl, h⟩
  | cons op ops ih =>
    cases op with
    | push t =>
      obtain ⟨st', hpush, hrepr, _⟩ := Queue.push_spec t h
      obtain ⟨stf, hrun, hreprf⟩ := ih hrepr
      refine ⟨stf, ?_, ?_⟩
      · simp only [runOps, hpush, hrun, specRun, specStep, Option.toList,
          List.nil_append]
      · simpa [specRun, specStep] using hreprf
    | pop =>
      obtain ⟨st', hpop, hrepr, _⟩ := Queue.pop_spec h
      obtain ⟨stf, hrun, hreprf⟩ := ih hrepr
      cases xs with
      | nil =>
        refine ⟨stf, ?_, ?_⟩
        · simp only [runOps, hpop, hrun, specRun, specStep, Option.toList,
            List.head?]
          rfl
        · simpa [specRun, specStep] using hreprf
      | cons x rest =>
        refine ⟨stf, ?_, ?_⟩
        · simp only [runOps, hpop, hrun, specRun, specStep, Option.toList,
            List.head?]
          rfl
        · simpa [specRun, specStep] using hreprf

/-- Reference runs compose over appended operation sequences. -/
theorem specRun_append (xs : List α) (ops1 ops2 : List (QOp α)) :
    specRun xs (ops1 ++ ops2) =
      ((specRun (specRun xs ops1).1 ops2).1,
        (specRun xs ops1).2 ++ (specRun (specRun xs ops1).1 ops2).2) := by
  induction ops1 generalizing xs with
  | nil => simp [specRun]
  | cons op ops ih => simp [specRun, ih]

/-- Pushing a batch of values appends them and reports nothing. -/
theorem specRun_pushes (xs vs : List α) :
    specRun xs (vs.map QOp.push) = (xs ++ vs, []) := by
  induction vs generalizing xs with
  | nil => simp [specRun]
  | cons v vs ih => simp [specRun, specStep, ih]

/-- Popping once per held value drains the reference FIFO in order. -/
theorem specRun_pops (xs : List α) :
    specRun xs (List.replicate xs.length QOp.pop) = ([], xs.map some) := by
  induction xs with
  | nil => simp [specRun]
  | cons x rest ih => simp [List.replicate_succ, specRun, specStep, ih]

/-- Every reachable state is well represented by some abstract contents. -/
theorem Reachable.repr {st : QueueState α} (h : Reachable st) :
    ∃ xs, QueueRepr st xs := by
  induction h with
  | new => exact ⟨[], Queue.new_repr⟩
  | push hr hstep ih =>
    obtain ⟨xs, hxs⟩ := ih
    obtain ⟨st'', hpush, hrepr, _⟩ := Queue.push_spec _ hxs
    rw [hstep] at hpush
    exact ⟨_, (Option.some.inj hpush) ▸ hrepr⟩
  | pop hr hstep ih =>
    rename_i stp stp' r
    obtain ⟨xs, hxs⟩ := ih
    obtain ⟨st'', hpop, hrepr, _⟩ := Queue.pop_spec hxs
    rw [hstep] at hpop
    have h2 : stp' = st'' := congrArg Prod.snd (Option.some.inj hpop)
    exact ⟨_, h2 ▸ hrepr⟩

namespace Ebr

theorem two_mul_lor_one (e : Nat) : (2 * e) ||| 1 = 2 * e + 1 := by
  have h := Nat.lor_bit false e true 0
  simpa [Nat.bit] using h

theorem shift_lor_one (e : Nat) : (e <<< 1) ||| 1 = 2 * e + 1 := by
  rw [Nat.shiftLeft_eq, pow_one, Nat.mul_comm]
  exact two_mul_lor_one e

end Ebr

namespace Ebr.Bag

theorem built_wf {γ : Type} {b : Bag γ} (h : Built b) : Wf b := by
  induction h with
  | new =>
    refine ⟨by simp [new, BAG_SIZE], by simp [new], ?_⟩
    intro i hi
    simp [new] at hi
  | insert hb hstep ih =>
    rename_i b b' t
    obtain ⟨hlen, hle, hslots⟩ := ih
    have hnotfull : ¬ b.is_full = true := by
      intro hfull
      simp [try_insert, hfull] at hstep
    have hidx : b.index < BAG_SIZE := by
      simp [is_full] at hnotfull
      omega
    have hb' : b' = ⟨b.data.set b.index (some t), b.index + 1⟩ := by
      simp [try_insert, hnotfull] at hstep
      exact hstep.symm
    subst hb'
    refine ⟨by simpa using hlen, by simpa using hidx, ?_⟩
    intro i hi
    simp only at hi ⊢
    rcases Nat.lt_or_ge i b.index with hlt | hge
    · obtain ⟨g, hg⟩ := hslots i hlt
      exact ⟨g, by rw [List.get?_set_ne _ _ (Nat.ne_of_lt hlt).symm]; exact hg⟩
    · have hieq : i = b.index := by omega
      subst hieq
      refine ⟨t, ?_⟩
      rw [List.get?_set_eq_of_lt]
      rw [hlen]; exact hidx

end Ebr.Bag

namespace Ebr

/-- The drain splits the FIFO into the freed prefix and the kept suffix. -/
theorem free_garbage_partition {γ : Type} (c : Nat) (q : List (Nat × Bag γ)) :
    (free_garbage c q).1 ++ (free_garbage c q).2 = q := by
  induction q with
  | nil => simp [free_garbage]
  | cons eb rest ih =>
    obtain ⟨e, b⟩ := eb
    by_cases hage : c - e ≥ 2
    · simp [free_garbage, hage, ih]
    · simp [free_garbage, hage]

/-- Only bags at least two epochs old are freed. -/
theorem free_garbage_age {γ : Type} (c : Nat) (q : List (Nat × Bag γ))
    {e : Nat} {b : Bag γ} (h : (e, b) ∈ (free_garbage c q).1) :
    e + 2 ≤ c := by
  induction q with
  | nil => simp [free_garbage] at h
  | cons eb rest ih =>
    obtain ⟨e', b'⟩ := eb
    by_cases hage : c - e' ≥ 2
    · simp only [free_garbage, if_pos hage, List.mem_cons] at h
      rcases h with heq | hmem
      · obtain ⟨he, _⟩ := Prod.mk.injEq .. ▸ heq
        omega
      · exact ih hmem
    · simp [free_garbage, hage] at h

end Ebr

namespace EbrList

theorem iterCollect_eq_map {α : Type} (ns : NodeSeq α) :
    iterCollect ns = ns.map Prod.fst := by
  induction ns with
  | nil => rfl
  | cons n rest ih => obtain ⟨d, t⟩ := n; simp [iterCollect, ih]

theorem iterCollect_eq_iterNext {α : Type} (ns : NodeSeq α) :
    iterCollect ns = match iterNext ns with
      | none => []
      | some (d, rest) => d :: iterCollect rest := by
  cases ns with
  | nil => rfl
  | cons n rest => obtain ⟨d, t⟩ := n; rfl

end EbrList

/-- The reference FIFO on the scenario `push v1..vn; pop × (n+1)` reports
`some v1, .., some vn, none`. -/
theorem specRun_push_pop {α : Type} (vs : List α) :
    (specRun [] (vs.map QOp.push ++
      List.replicate (vs.length + 1) QOp.pop)).2 = vs.map some ++ [none] := by
  rw [specRun_append, specRun_pushes]
  simp only [List.nil_append]
  rw [List.replicate_succ', specRun_append, specRun_pops]
  simp [specRun, specStep]

/-! ## The claims -/

/-- C1.  For every sequence of single-threaded queue operations, the
Michael-Scott queue behaves as a FIFO: the results of all pops equal those
of the list-based FIFO reference model (which pops values in push order),
and in particular pushing `v1..vn` into an empty queue and popping `n + 1`
times returns `some v1, .., some vn` and then `none`. -/
theorem claim1_queue_fifo :
    (∀ ops : List (QOp Nat), ∃ stf,
      runOps Queue.new ops = some (stf, (specRun [] ops).2)) ∧
    (∀ vs : List Nat, ∃ stf,
      runOps Queue.new
          (vs.map QOp.push ++ List.replicate (vs.length + 1) QOp.pop) =
        some (stf, vs.map some ++ [none])) := by
  constructor
  · intro ops
    obtain ⟨stf, h, _⟩ := runOps_refines Queue.new_repr ops
    exact ⟨stf, h⟩
  · intro vs
    obtain ⟨stf, h, _⟩ := runOps_refines Queue.new_repr
      (vs.map QOp.push ++ List.replicate (vs.length + 1) QOp.pop)
    rw [specRun_push_pop] at h
    exact ⟨stf, h⟩

/-- C2.  The claim states that in both variants a failed head CAS makes
`pop` retry, and `pop` returns `None` only on an empty queue.  This holds
for the EBR variant but not for the HP variant: on the reachable non-empty
queue holding `5`, with the head CAS failing (concurrent interference), the
EBR pop retries its loop while the HP pop hits `Err(e) => None` and returns
`None` although `is_empty` is false. -/
theorem claim2_hp_pop_cas_failure :
    ebrPopAttempt (⟨[⟨none, some 1⟩, ⟨some 5, none⟩], 0, 1⟩ : QueueState Nat)
      false = some .retry ∧
    hpPopAttempt (⟨[⟨none, some 1⟩, ⟨some 5, none⟩], 0, 1⟩ : QueueState Nat)
      false = some (.ret none) ∧
    Queue.is_empty (⟨[⟨none, some 1⟩, ⟨some 5, none⟩], 0, 1⟩ : QueueState Nat)
      = some false ∧
    Reachable (⟨[⟨none, some 1⟩, ⟨some 5, none⟩], 0, 1⟩ : QueueState Nat) :=
  ⟨by decide, by decide, by decide,
    Reachable.push (t := 5) Reachable.new (by decide)⟩

/-- C3.  A bag tagged with epoch `e` is freed by `free_garbage` only when
the current epoch `c` satisfies `c − e ≥ 2` (saturating); the drain only
splits the FIFO, never dropping a younger bag; and any bag that
`increment_epoch` removes from the FIFO satisfies `e + 2 ≤` the new global
epoch. -/
theorem claim3_ebr_epoch_safety {γ : Type} :
    (∀ (c : Nat) (q : List (Nat × Ebr.Bag γ)) (e : Nat) (b : Ebr.Bag γ),
      (e, b) ∈ (Ebr.free_garbage c q).1 → e + 2 ≤ c) ∧
    (∀ (c : Nat) (q : List (Nat × Ebr.Bag γ)),
      (Ebr.free_garbage c q).1 ++ (Ebr.free_garbage c q).2 = q) ∧
    (∀ (g obs : Nat) (q : List (Nat × Ebr.Bag γ)) (e : Nat) (b : Ebr.Bag γ),
      (e, b) ∈ q → (e, b) ∉ (Ebr.increment_epoch g obs q).2 →
      e + 2 ≤ (Ebr.increment_epoch g obs q).1) := by
  refine ⟨fun c q e b h => Ebr.free_garbage_age c q h,
    Ebr.free_garbage_partition, ?_⟩
  intro g obs q e b hmem hnot
  unfold Ebr.increment_epoch at hnot ⊢
  by_cases hg : g = obs
  · simp only [if_pos hg] at hnot ⊢
    have hsplit := Ebr.free_garbage_partition (obs + 1) q
    rw [← hsplit] at hmem
    rcases List.mem_append.mp hmem with hfreed | hkept
    · have := Ebr.free_garbage_age (obs + 1) q hfreed
      omega
    · exact absurd hkept hnot
  · simp only [if_neg hg] at hnot ⊢
    exact absurd hmem hnot

/-- C3 witness: concrete instances for all three conjuncts. -/
theorem claim3_witness :
    (3 + 2 ≤ 5) ∧ ((Ebr.free_garbage 5 [(3, (Ebr.Bag.new : Ebr.Bag Nat))]).1
        ++ (Ebr.free_garbage 5 [(3, Ebr.Bag.new)]).2 = [(3, Ebr.Bag.new)]) ∧
      1 + 2 ≤ (Ebr.increment_epoch 3 3
        [(1, (Ebr.Bag.new : Ebr.Bag Nat))]).1 :=
  ⟨(claim3_ebr_epoch_safety (γ := Nat)).1 5 [(3, Ebr.Bag.new)] 3 Ebr.Bag.new
      (by decide),
    (claim3_ebr_epoch_safety (γ := Nat)).2.1 5 [(3, Ebr.Bag.new)],
    (claim3_ebr_epoch_safety (γ := Nat)).2.2 3 3 [(1, Ebr.Bag.new)] 1
      Ebr.Bag.new (by decide) (by decide)⟩

/-- C4.  `compare_and_set(expected, new)` on the tagged atomic cell
succeeds and stores `new` exactly when the cell's current word equals
`expected`'s word; on failure it returns the cell's actual current value
and leaves the cell unchanged. -/
theorem claim4_compare_and_set :
    ∀ (cell : Nat) (cur nw : HpAtomic.Ptr),
      (cell = cur.data ∧
        HpAtomic.compare_and_set cell cur nw = (.ok (), nw.data)) ∨
      (cell ≠ cur.data ∧
        HpAtomic.compare_and_set cell cur nw = (.error ⟨cell⟩, cell)) := by
  intro cell cur nw
  by_cases h : cell = cur.data
  · exact Or.inl ⟨h, by simp [HpAtomic.compare_and_set, h]⟩
  · exact Or.inr ⟨h, by simp [HpAtomic.compare_and_set, h]⟩

/-- C5.  For every reachable queue state, the queue is non-empty exactly
when the sentinel's `next` pointer is non-null — which is what `is_empty`
tests — and `pop` returns `None` exactly from the states where `is_empty`
would return `true`. -/
theorem claim5_is_empty_iff {α : Type} {st : QueueState α}
    (h : Reachable st) :
    ∃ xs, QueueRepr st xs ∧
      Queue.is_empty st = some xs.isEmpty ∧
      (xs ≠ [] ↔ Queue.is_empty st = some false) ∧
      ((∃ st', Queue.pop st = some (none, st')) ↔
        Queue.is_empty st = some true) := by
  obtain ⟨xs, hxs⟩ := h.repr
  have hie := Queue.is_empty_spec hxs
  obtain ⟨st', hpop, _, _⟩ := Queue.pop_spec hxs
  refine ⟨xs, hxs, hie, ?_, ?_, ?_⟩
  · cases xs with
    | nil => simp [hie]
    | cons x rest => simp [hie]
  · rintro ⟨st'', hp⟩
    have heq := Option.some.inj (hpop.symm.trans hp)
    have hh : xs.head? = none := congrArg Prod.fst heq
    cases xs with
    | nil => simpa using hie
    | cons x rest => simp at hh
  · intro htrue
    cases xs with
    | nil => exact ⟨st', by simpa using hpop⟩
    | cons x rest => rw [hie] at htrue; simp at htrue

/-- C5 witness: the freshly constructed queue is reachable; `is_empty` is
`true` on it and `pop` returns `None` from it. -/
theorem claim5_witness :
    ∃ xs, QueueRepr (Queue.new : QueueState Nat) xs ∧
      Queue.is_empty (Queue.new : QueueState Nat) = some xs.isEmpty ∧
      (xs ≠ [] ↔ Queue.is_empty (Queue.new : QueueState Nat) = some false) ∧
      ((∃ st', Queue.pop (Queue.new : QueueState Nat) = some (none, st')) ↔
        Queue.is_empty (Queue.new : QueueState Nat) = some true) :=
  claim5_is_empty_iff Reachable.new

/-- C6.  If the predicate rejects the first element's data, `pop_if`
returns `None` and leaves the queue state — head, tail and every link —
unchanged (no head CAS is attempted). -/
theorem claim6_pop_if_false_frame {α : Type} {st : QueueState α} {x : α}
    {xs : List α} {f : α → Bool} (h : QueueRepr st (x :: xs))
    (hf : f x = false) :
    Queue.pop_if st f = some (none, st) := by
  obtain ⟨heap, hd, tl⟩ := st
  cases h with
  | cons ha hnx hb hbd hab hchain =>
    rename_i n b bn
    obtain ⟨nd, nn⟩ := n
    simp only at hnx
    subst hnx
    obtain ⟨bnd, bnn⟩ := bn
    simp only at hbd
    subst hbd
    unfold Queue.pop_if
    rw [ha]
    show (match heap.get? b with
      | none => none
      | some node =>
        match node.data with
        | none => none
        | some d =>
          if f d then some (some d,
            ({ heap := heap, head := b, tail := tl } : QueueState α))
          else some (none,
            ({ heap := heap, head := hd, tail := tl } : QueueState α))) = _
    rw [hb]
    show (if f x then some (some x,
        ({ heap := heap, head := b, tail := tl } : QueueState α))
      else some (none,
        ({ heap := heap, head := hd, tail := tl } : QueueState α))) = _
    rw [hf]
    rfl

/-- C6 witness: on the queue holding `7`, a predicate that rejects
everything makes `pop_if` report `None` and keep the state. -/
theorem claim6_witness :
    Queue.pop_if (⟨[⟨none, some 1⟩, ⟨some 7, none⟩], 0, 1⟩ : QueueState Nat)
      (fun _ => false) =
      some (none, ⟨[⟨none, some 1⟩, ⟨some 7, none⟩], 0, 1⟩) :=
  @claim6_pop_if_false_frame Nat ⟨[⟨none, some 1⟩, ⟨some 7, none⟩], 0, 1⟩ 7 []
    (fun _ => false)
    (ChainTo.cons rfl rfl rfl rfl (by decide) (ChainTo.nil rfl rfl)) rfl

/-- C7 counterexample.  The claim says both `contains` and the iterator
restart from the head on a tag-1 `next` and never traverse past the tagged
node.  The iterator does no such thing: on the two-node snapshot whose
first node's `next` carries tag 1, iteration yields both values — it steps
straight past the tagged link — whereas `contains` does restart there. -/
theorem claim7_counterexample :
    EbrList.iterCollect [((1 : Nat), 1), (2, 0)] = [1, 2] ∧
    EbrList.iterNext [((1 : Nat), 1), (2, 0)] = some (1, [(2, 0)]) ∧
    EbrList.iterNext [((2 : Nat), 0)] = some (2, []) ∧
    EbrList.containsWalk (2 : Nat) [(1, 1), (2, 0)] = .restart :=
  ⟨rfl, rfl, rfl, rfl⟩

/-- C7 amended.  The `contains` walk restarts from the head when it meets a
node whose `next` carries a non-zero tag (before any match); the iterator
performs no tag check and yields every node's data in order, tagged links
included. -/
theorem claim7_amended {α : Type} [DecidableEq α] :
    (∀ (v d : α) (tag : Nat) (rest : EbrList.NodeSeq α), d ≠ v → tag ≠ 0 →
      EbrList.containsWalk v ((d, tag) :: rest) = .restart) ∧
    (∀ ns : EbrList.NodeSeq α, EbrList.iterCollect ns = ns.map Prod.fst) := by
  refine ⟨?_, EbrList.iterCollect_eq_map⟩
  intro v d tag rest hdv htag
  simp [EbrList.containsWalk, hdv, htag]

/-- C7 amended, witnessed at concrete inputs. -/
theorem claim7_amended_witness :
    EbrList.containsWalk (2 : Nat) [(1, 1), (2, 0)] = .restart ∧
    EbrList.iterCollect [((3 : Nat), 1), (4, 0)] = [3, 4] :=
  ⟨claim7_amended.1 2 1 1 [(2, 0)] (by decide) (by decide),
    by rw [claim7_amended.2]; rfl⟩

/-- Arithmetic reading of the marker decoding: shift right is division by
two and masking the low bit is the parity. -/
theorem Ebr.epoch_and_pinned_eq (w : Nat) :
    Ebr.epoch_and_pinned w = (w / 2, w % 2 == 1) := by
  unfold Ebr.epoch_and_pinned
  rw [Nat.shiftRight_eq_div_pow, pow_one, Nat.and_one_is_mod]

/-- C8.  The pin marker word packs `(observed_epoch << 1) | pinned_bit`:
whenever `pin(e)` succeeds the stored word decodes to `(e, true)`, and the
subsequent `unpin` clears only the pinned bit, so the word then decodes to
`(e, false)`. -/
theorem claim8_marker_packing {w epoch w' : Nat}
    (h : Ebr.markerPin w epoch = some w') :
    Ebr.epoch_and_pinned w' = (epoch, true) ∧
      ∃ w'', Ebr.markerUnpin w' = some w'' ∧
        Ebr.epoch_and_pinned w'' = (epoch, false) := by
  unfold Ebr.markerPin at h
  by_cases hc : w = 2 * (w / 2)
  · rw [if_pos hc] at h
    have hw' : w' = 2 * epoch + 1 := by
      have h2 := Option.some.inj h
      rw [← h2, Ebr.shift_lor_one]
    subst hw'
    refine ⟨?_, 2 * epoch, ?_, ?_⟩
    · rw [Ebr.epoch_and_pinned_eq]
      have h1 : (2 * epoch + 1) / 2 = epoch := by omega
      have h2 : (2 * epoch + 1) % 2 = 1 := by omega
      rw [h1, h2]
      rfl
    · unfold Ebr.markerUnpin
      rw [if_pos rfl]
      congr 1
      omega
    · rw [Ebr.epoch_and_pinned_eq]
      have h1 : (2 * epoch) / 2 = epoch := by omega
      have h2 : (2 * epoch) % 2 = 0 := by omega
      rw [h1, h2]
      rfl
  · rw [if_neg hc] at h
    exact absurd h (by simp)

/-- C8 witness: pinning the unpinned word 4 at epoch 3 yields word 7, which
decodes to `(3, pinned)`; unpinning yields 6, which decodes to
`(3, unpinned)`. -/
theorem claim8_witness :
    Ebr.epoch_and_pinned 7 = (3, true) ∧
      ∃ w'', Ebr.markerUnpin 7 = some w'' ∧
        Ebr.epoch_and_pinned w'' = (3, false) :=
  @claim8_marker_packing 4 3 7 (by decide)

/-- C9.  Calling `pin` on a marker whose pinned bit is already set is a
fatal programmer error: the CAS from the bit-cleared word cannot succeed,
and the code panics instead of updating the marker. -/
theorem claim9_nested_pin_panics {w : Nat}
    (h : (Ebr.epoch_and_pinned w).2 = true) (epoch : Nat) :
    Ebr.markerPin w epoch = none := by
  simp only [Ebr.epoch_and_pinned_eq, beq_iff_eq] at h
  unfold Ebr.markerPin
  rw [if_neg (by omega)]

/-- C9 witness: pinning the already-pinned word 5 panics for any target
epoch, e.g. 9. -/
theorem claim9_witness : Ebr.markerPin 5 9 = none :=
  claim9_nested_pin_panics (w := 5) (by decide) 9

/-- C10.  Every bag built by the garbage-bag operations keeps
`index ≤ 32 = BAG_SIZE` with every slot below `index` occupied;
`try_insert` rejects the garbage (`Err`, bag untouched) exactly when
`index = 32`, and otherwise stores it at position `index`, increments
`index`, and returns `Ok`. -/
theorem claim10_bag_invariant {γ : Type} {b : Ebr.Bag γ}
    (h : Ebr.Bag.Built b) :
    (b.index ≤ Ebr.BAG_SIZE ∧
      ∀ i, i < b.index → ∃ g, b.data.get? i = some (some g)) ∧
    (∀ t : γ, Ebr.Bag.try_insert b t = .error t ↔ b.index = Ebr.BAG_SIZE) ∧
    (∀ t : γ, b.index < Ebr.BAG_SIZE →
      Ebr.Bag.try_insert b t =
        .ok ⟨b.data.set b.index (some t), b.index + 1⟩) := by
  obtain ⟨hlen, hle, hslots⟩ := Ebr.Bag.built_wf h
  refine ⟨⟨hle, hslots⟩, ?_, ?_⟩
  · intro t
    constructor
    · intro he
      by_contra hne
      have hnf : ¬ b.is_full = true := by
        simp [Ebr.Bag.is_full]
        exact hne
      simp [Ebr.Bag.try_insert, hnf] at he
    · intro hidx
      simp [Ebr.Bag.try_insert, Ebr.Bag.is_full, hidx]
  · intro t hlt
    have hnf : ¬ b.is_full = true := by
      simp [Ebr.Bag.is_full]
      omega
    simp [Ebr.Bag.try_insert, hnf]

/-- C10 witness: the fresh bag satisfies the invariant and accepts an
insertion at slot 0. -/
theorem claim10_witness :
    ((Ebr.Bag.new : Ebr.Bag Nat).index ≤ Ebr.BAG_SIZE ∧
      ∀ i, i < (Ebr.Bag.new : Ebr.Bag Nat).index →
        ∃ g, (Ebr.Bag.new : Ebr.Bag Nat).data.get? i = some (some g)) ∧
    (∀ t : Nat, Ebr.Bag.try_insert Ebr.Bag.new t = .error t ↔
      (Ebr.Bag.new : Ebr.Bag Nat).index = Ebr.BAG_SIZE) ∧
    (∀ t : Nat, (Ebr.Bag.new : Ebr.Bag Nat).index < Ebr.BAG_SIZE →
      Ebr.Bag.try_insert Ebr.Bag.new t =
        .ok ⟨(Ebr.Bag.new : Ebr.Bag Nat).data.set
          (Ebr.Bag.new : Ebr.Bag Nat).index (some t),
          (Ebr.Bag.new : Ebr.Bag Nat).index + 1⟩) :=
  claim10_bag_invariant Ebr.Bag.Built.new

end Comere
